import Mathlib

/-!
Shallow embedding of the safe-config-service core: the Chain/GasPrice domain
model and its pre-write validation (src/chains/models.py), the chains list
endpoint with ordering and pagination (src/chains/views.py), and the safe-apps
list endpoint with its chainId filter and response cache
(src/safe_apps/views.py).  Nullable database columns become `Option`, raising
`ValidationError` with a field→message dict becomes returning `Except.error`
with the field/message pairs, and query sets become Lean lists.
-/

namespace SafeConfig

/-- Embedding of `chains.models.GasPrice`.  `gwei_factor` is a fixed-point
decimal column (9 decimal places, embedded as its integer numerator) and
`fixed_wei_value` a nullable 256-bit unsigned integer column; neither value
participates in `clean`, only the nullness of `fixed_wei_value` does. -/
structure GasPrice where
  chain : Nat
  oracle_uri : Option String
  oracle_parameter : Option String
  gwei_factor : Int
  fixed_wei_value : Option Nat
  rank : Int
deriving DecidableEq

/-- Message of the exclusivity `ValidationError` in `GasPrice.clean`. -/
def exclusivity_message : String :=
  "An oracle uri or fixed gas price should be provided (but not both)"

/-- Message of the missing-oracle-parameter `ValidationError` in
`GasPrice.clean`. -/
def oracle_parameter_message : String :=
  "The oracle parameter should be set"

/-- Embedding of `GasPrice.clean` (src/chains/models.py lines 118-129).
Python `x is not None` becomes `Option.isSome`; the first `raise` aborts the
method, so the second check only runs when the first one passed. -/
def GasPrice.clean (g : GasPrice) : Except (List (String × String)) Unit :=
  if g.fixed_wei_value.isSome = g.oracle_uri.isSome then
    Except.error [("oracle_uri", exclusivity_message),
                  ("fixed_wei_value", exclusivity_message)]
  else if g.oracle_uri.isSome && g.oracle_parameter.isNone then
    Except.error [("oracle_parameter", oracle_parameter_message)]
  else
    Except.ok ()

/-- Field names carried by a validation outcome: the keys of the raised
`ValidationError` dict, or `[]` when validation passed. -/
def errorFields (e : Except (List (String × String)) Unit) : List String :=
  match e with
  | Except.error l => l.map Prod.fst
  | Except.ok _ => []

/-- C1, counterexample: a GasPrice with `oracle_uri` set and `fixed_wei_value`
null has exactly one of the pair non-null, yet `clean` rejects it (the
oracle parameter is missing), refuting the claimed `iff`. -/
theorem gasPrice_clean_exactlyOne_counterexample :
    ((GasPrice.mk 1 (some "https://oracle.example/api") none 1000000000 none
        100).oracle_uri.isSome
      ≠ (GasPrice.mk 1 (some "https://oracle.example/api") none 1000000000 none
        100).fixed_wei_value.isSome)
    ∧ GasPrice.clean
        (GasPrice.mk 1 (some "https://oracle.example/api") none 1000000000 none
          100)
      ≠ Except.ok () := by
  constructor
  · decide
  · intro h
    simp [GasPrice.clean] at h

/-- C1 (amended): `clean` succeeds iff exactly one of
\x7boracle_uri, fixed_wei_value\x7d is non-null and, additionally,
`oracle_uri` being set implies `oracle_parameter` is set; when both are
set or both are null, it fails with the field error populated on both
`oracle_uri` and `fixed_wei_value`. -/
theorem gasPrice_clean_ok_iff (g : GasPrice) :
    (g.clean = Except.ok () ↔
      (g.oracle_uri.isSome ≠ g.fixed_wei_value.isSome
        ∧ (g.oracle_uri.isSome = true → g.oracle_parameter.isSome = true)))
    ∧ (g.fixed_wei_value.isSome = g.oracle_uri.isSome →
        g.clean ≠ Except.ok ()
        ∧ errorFields g.clean = ["oracle_uri", "fixed_wei_value"]) := by
  obtain ⟨c, ou, op, gf, fw, r⟩ := g
  cases ou <;> cases op <;> cases fw <;>
    simp [GasPrice.clean, errorFields]

/-- C1 witness: at a record with both fields null, the amended theorem
yields rejection with the error populated on both fields. -/
theorem gasPrice_clean_ok_iff_witness :
    GasPrice.clean (GasPrice.mk 1 none none 1000000000 none 100)
        ≠ Except.ok ()
    ∧ errorFields
        (GasPrice.clean (GasPrice.mk 1 none none 1000000000 none 100))
      = ["oracle_uri", "fixed_wei_value"] :=
  (gasPrice_clean_ok_iff (GasPrice.mk 1 none none 1000000000 none 100)).2
    (by decide)

/-- C2, counterexample: with `oracle_uri` set, `oracle_parameter` null and
`fixed_wei_value` also set, `clean` rejects through the exclusivity check,
whose error does not mention the `oracle_parameter` field. -/
theorem gasPrice_missing_parameter_counterexample :
    GasPrice.clean
        (GasPrice.mk 5 (some "https://gas.example/price") none 1000000000
          (some 21000) 100)
      ≠ Except.ok ()
    ∧ "oracle_parameter" ∉
        errorFields (GasPrice.clean
          (GasPrice.mk 5 (some "https://gas.example/price") none 1000000000
            (some 21000) 100)) := by
  constructor
  · intro h
    simp [GasPrice.clean] at h
  · decide

/-- C2 (amended): every record with `oracle_uri` set and `oracle_parameter`
null is rejected before persistence; the field-level error is on
`oracle_parameter` when `fixed_wei_value` is null, while when
`fixed_wei_value` is also set the exclusivity error on `oracle_uri` and
`fixed_wei_value` is raised instead. -/
theorem gasPrice_missing_parameter_rejected (g : GasPrice)
    (huri : g.oracle_uri.isSome = true) (hpar : g.oracle_parameter = none) :
    g.clean ≠ Except.ok ()
    ∧ (g.fixed_wei_value = none →
        errorFields g.clean = ["oracle_parameter"]) := by
  obtain ⟨c, ou, op, gf, fw, r⟩ := g
  cases ou <;> cases op <;> cases fw <;>
    simp_all [GasPrice.clean, errorFields]

/-- C2 witness: at a concrete record with oracle uri set, parameter null and
fixed value null, the amended theorem yields the oracle_parameter error. -/
theorem gasPrice_missing_parameter_rejected_witness :
    GasPrice.clean
        (GasPrice.mk 2 (some "https://o.example") none 1000000000 none 50)
      ≠ Except.ok ()
    ∧ errorFields (GasPrice.clean
        (GasPrice.mk 2 (some "https://o.example") none 1000000000 none 50))
      = ["oracle_parameter"] :=
  ⟨(gasPrice_missing_parameter_rejected
      (GasPrice.mk 2 (some "https://o.example") none 1000000000 none 50)
      (by decide) rfl).1,
   (gasPrice_missing_parameter_rejected
      (GasPrice.mk 2 (some "https://o.example") none 1000000000 none 50)
      (by decide) rfl).2 rfl⟩

/-- C3, counterexample: a record violating both invariants at once (both
`oracle_uri` and `fixed_wei_value` set while `oracle_parameter` is null)
reports only the exclusivity check's fields; the violated
`oracle_parameter` field is absent from the error. -/
theorem gasPrice_multi_violation_counterexample :
    errorFields (GasPrice.clean
        (GasPrice.mk 7 (some "https://oracle.example/gas") none 1000000000
          (some 1) 100))
      = ["oracle_uri", "fixed_wei_value"]
    ∧ "oracle_parameter" ∉
        errorFields (GasPrice.clean
          (GasPrice.mk 7 (some "https://oracle.example/gas") none 1000000000
            (some 1) 100)) := by
  constructor
  · simp [GasPrice.clean, errorFields]
  · decide

/-- C3 (amended): a single validation run reports together all fields of the
one check that raises — the exclusivity check populates `oracle_uri` and
`fixed_wei_value` together in one structured error — but when several checks
are violated at once only the first failed check's fields are reported, so
`oracle_parameter` never appears alongside them. -/
theorem gasPrice_first_check_fields (g : GasPrice)
    (h : g.fixed_wei_value.isSome = g.oracle_uri.isSome) :
    errorFields g.clean = ["oracle_uri", "fixed_wei_value"]
    ∧ "oracle_parameter" ∉ errorFields g.clean := by
  obtain ⟨c, ou, op, gf, fw, r⟩ := g
  cases ou <;> cases fw <;>
    simp_all [GasPrice.clean, errorFields]

/-- C3 witness: at a record with both sources set and the parameter null,
the amended theorem reports exactly the two exclusivity fields. -/
theorem gasPrice_first_check_fields_witness :
    errorFields (GasPrice.clean
        (GasPrice.mk 3 (some "https://oracle.example/v2") none 1000000000
          (some 30) 10))
      = ["oracle_uri", "fixed_wei_value"]
    ∧ "oracle_parameter" ∉
        errorFields (GasPrice.clean
          (GasPrice.mk 3 (some "https://oracle.example/v2") none 1000000000
            (some 30) 10)) :=
  gasPrice_first_check_fields
    (GasPrice.mk 3 (some "https://oracle.example/v2") none 1000000000
      (some 30) 10)
    (by decide)

/-- Embedding of `chains.models.Chain`, restricted to the columns the list
and detail endpoints read (primary key, the two ordering keys, the
short-name lookup key, and two representative data columns); the remaining
columns are presentational text/URL/choice fields that no endpoint logic
inspects. -/
structure Chain where
  id : Nat
  relevance : Int
  name : String
  short_name : String
  description : String
  l2 : Bool
deriving DecidableEq

/-- Ordering fields whitelisted by `ChainsListView.ordering_fields`. -/
def ordering_fields : List String := ["relevance", "name"]

/-- Default ordering configured on `ChainsListView.ordering`. -/
def default_ordering : List String := ["relevance", "name"]

/-- Characters removed by Python `str.strip` (ASCII whitespace). -/
def isPySpace (c : Char) : Bool :=
  c = ' ' || c = '\t' || c = '\n' || c = '\r' || c = '\x0b' || c = '\x0c'

/-- Python `str.strip()` on the character list of a string. -/
def pyStrip (s : String) : String :=
  String.mk (((s.data.dropWhile isPySpace).reverse.dropWhile isPySpace).reverse)

/-- Splitting a character list on a separator, Python `str.split(sep)`
style: `n` separators yield `n + 1` (possibly empty) pieces. -/
def splitOnChar (sep : Char) : List Char → List (List Char)
  | [] => [[]]
  | c :: rest =>
    if c = sep then [] :: splitOnChar sep rest
    else
      match splitOnChar sep rest with
      | [] => [[c]]
      | w :: ws => (c :: w) :: ws

/-- Modelled from the spec: the ordering backend of the chains list view
(rest_framework `OrderingFilter`, library code not under src/) splits the
`ordering` query parameter on commas and strips each term. -/
def parse_ordering_terms (p : String) : List String :=
  (splitOnChar ',' p.data).map (fun w => pyStrip (String.mk w))

/-- Modelled from the spec: a term is valid when, after removing an optional
leading `-` (descending direction), it names a whitelisted ordering field. -/
def term_valid (t : String) : Bool :=
  ordering_fields.contains
    (String.mk (match t.data with
      | '-' :: rest => rest
      | w => w))

/-- Modelled from the spec: terms naming fields outside `ordering_fields`
are dropped, silently. -/
def remove_invalid_fields (fields : List String) : List String :=
  fields.filter term_valid

/-- Modelled from the spec: the effective ordering of a chains-list request.
An absent or empty parameter, or one with no valid term remaining, falls
back to the view's default ordering. -/
def get_ordering (param : Option String) : List String :=
  match param with
  | none => default_ordering
  | some p =>
    if p = "" then default_ordering
    else if (remove_invalid_fields (parse_ordering_terms p)).isEmpty then
      default_ordering
    else remove_invalid_fields (parse_ordering_terms p)

/-- Three-way comparison on the integers backing `relevance`. -/
def intCmp (x y : Int) : Ordering :=
  if x < y then Ordering.lt else if x = y then Ordering.eq else Ordering.gt

/-- Lexicographic strict order on character lists, the text collation used
by the store for `ORDER BY` on the `name` column. -/
def charListLt : List Char → List Char → Bool
  | [], [] => false
  | [], _ :: _ => true
  | _ :: _, [] => false
  | c :: cs, d :: ds =>
    if c < d then true
    else if d < c then false
    else charListLt cs ds

theorem charListLt_irrefl : ∀ xs : List Char, charListLt xs xs = false
  | [] => rfl
  | c :: cs => by
    simp [charListLt, lt_irrefl, charListLt_irrefl cs]

theorem charListLt_asymm : ∀ xs ys : List Char,
    charListLt xs ys = true → charListLt ys xs = false
  | [], [] => by simp [charListLt]
  | [], _ :: _ => by simp [charListLt]
  | _ :: _, [] => by simp [charListLt]
  | c :: cs, d :: ds => by
    rcases lt_trichotomy c d with h | h | h
    · simp [charListLt, h, lt_asymm h]
    · subst h
      simp only [charListLt, lt_irrefl, if_false]
      exact charListLt_asymm cs ds
    · simp [charListLt, h, lt_asymm h]

theorem charListLt_connex : ∀ xs ys : List Char,
    charListLt xs ys = false → charListLt ys xs = false → xs = ys
  | [], [] => fun _ _ => rfl
  | [], _ :: _ => by simp [charListLt]
  | _ :: _, [] => by simp [charListLt]
  | c :: cs, d :: ds => by
    intro h1 h2
    rcases lt_trichotomy c d with h | h | h
    · simp [charListLt, h] at h1
    · subst h
      simp only [charListLt, lt_irrefl, if_false] at h1 h2
      exact congrArg (List.cons c) (charListLt_connex cs ds h1 h2)
    · simp [charListLt, h] at h2

theorem charListLt_trans : ∀ xs ys zs : List Char,
    charListLt xs ys = true → charListLt ys zs = true →
    charListLt xs zs = true
  | _, [], [] => by simp [charListLt]
  | [], [], _ :: _ => by simp [charListLt]
  | _ :: _, [], _ :: _ => by simp [charListLt]
  | _, _ :: _, [] => by simp [charListLt]
  | [], _ :: _, _ :: _ => by simp [charListLt]
  | c :: cs, d :: ds, e :: es => by
    intro h1 h2
    rcases lt_trichotomy c d with hcd | hcd | hcd
    · rcases lt_trichotomy d e with hde | hde | hde
      · simp [charListLt, lt_trans hcd hde]
      · subst hde
        simp [charListLt, hcd]
      · simp [charListLt, lt_asymm hde, hde] at h2
    · subst hcd
      rcases lt_trichotomy c e with hce | hce | hce
      · simp [charListLt, hce]
      · subst hce
        simp only [charListLt, lt_irrefl, if_false] at h1 h2 ⊢
        exact charListLt_trans cs ds es h1 h2
      · simp [charListLt, lt_asymm hce, hce] at h2
    · simp [charListLt, lt_asymm hcd, hcd] at h1

/-- Three-way comparison on the strings backing `name`, by the collation
`charListLt`. -/
def strCmp (x y : String) : Ordering :=
  if charListLt x.data y.data then Ordering.lt
  else if x = y then Ordering.eq
  else Ordering.gt

/-- Comparison of two chains by one ordering term: `relevance` and `name`
ascending, `-relevance` and `-name` descending; any other term (already
filtered out upstream) compares equal. -/
def cmpTerm (t : String) (a b : Chain) : Ordering :=
  if t = "relevance" then intCmp a.relevance b.relevance
  else if t = "-relevance" then intCmp b.relevance a.relevance
  else if t = "name" then strCmp a.name b.name
  else if t = "-name" then strCmp b.name a.name
  else Ordering.eq

/-- Lexicographic comparison of two chains by a list of ordering terms,
later terms breaking ties of earlier ones (SQL `ORDER BY` semantics). -/
def cmpChain : List String → Chain → Chain → Ordering
  | [], _, _ => Ordering.eq
  | t :: ts, a, b =>
    match cmpTerm t a b with
    | Ordering.eq => cmpChain ts a b
    | o => o

/-- Chain `a` may precede chain `b` under the ordering terms `ts`. -/
def chainLE (ts : List String) (a b : Chain) : Bool :=
  cmpChain ts a b != Ordering.gt

/-- Sorting a list of chains by a list of ordering terms (the relational
store's `ORDER BY`, embedded as a sort on the list of records). -/
def order_by (ts : List String) (l : List Chain) : List Chain :=
  List.insertionSort (fun a b => chainLE ts a b = true) l

/-- The chains list endpoint before pagination: all chains, ordered by the
effective ordering of the request. -/
def chains_list (ordParam : Option String) (l : List Chain) : List Chain :=
  order_by (get_ordering ordParam) l

/-- Value of `ChainsListView.pagination_class.max_limit`. -/
def max_limit : Nat := 100

/-- Value of `ChainsListView.pagination_class.default_limit`. -/
def default_limit : Nat := 10

/-- Python `int(s)` restricted to strings of decimal digits, the only
shape a well-formed positive `limit` query value takes; anything else
raises and is treated as absent by the paginator. -/
def parseLimit (s : String) : Option Nat :=
  if s.data ≠ [] ∧ s.data.all Char.isDigit then
    some (s.data.foldl (fun acc c => acc * 10 + (c.toNat - 48)) 0)
  else none

/-- Modelled from the spec: the limit of a chains-list request
(rest_framework `LimitOffsetPagination`, library code not under src/).  A
missing, unparsable or zero `limit` falls back to the default page size; a
parsed limit is clamped to `max_limit`, never rejected. -/
def get_limit (q : Option String) : Nat :=
  match q with
  | none => default_limit
  | some s =>
    match parseLimit s with
    | none => default_limit
    | some n => if n = 0 then default_limit else min n max_limit

/-- Modelled from the spec: limit/offset pagination slices the ordered
record list. -/
def paginate (l : List Chain) (limitParam : Option String) (offset : Nat) :
    List Chain :=
  (l.drop offset).take (get_limit limitParam)

/-- The full chains list endpoint: order, then paginate. -/
def chains_endpoint (ordParam limitParam : Option String) (offset : Nat)
    (l : List Chain) : List Chain :=
  paginate (chains_list ordParam l) limitParam offset

/-- Chain `a` precedes chain `b` in the default order: strictly lower
relevance value, or equal relevance and a name that is not lexicographically
greater (`b.name` does not collate below `a.name`). -/
def relevanceNameLE (a b : Chain) : Prop :=
  a.relevance < b.relevance
  ∨ (a.relevance = b.relevance ∧ charListLt b.name.data a.name.data = false)

theorem strCmp_ne_gt (x y : String) :
    (strCmp x y != Ordering.gt) = true ↔
      charListLt y.data x.data = false := by
  unfold strCmp
  split_ifs with h1 h2
  · exact iff_of_true rfl (charListLt_asymm _ _ h1)
  · subst h2
    exact iff_of_true rfl (charListLt_irrefl _)
  · refine iff_of_false (by decide) ?_
    intro hyx
    have hx : charListLt x.data y.data = false := by simpa using h1
    exact h2 (congrArg String.mk (charListLt_connex _ _ hx hyx))

theorem cmpTerm_relevance (a b : Chain) :
    cmpTerm "relevance" a b = intCmp a.relevance b.relevance := rfl

theorem cmpTerm_name (a b : Chain) :
    cmpTerm "name" a b = strCmp a.name b.name := rfl

theorem cmpChain_default (a b : Chain) :
    cmpChain default_ordering a b =
      match intCmp a.relevance b.relevance with
      | Ordering.eq => strCmp a.name b.name
      | o => o := by
  simp only [default_ordering, cmpChain, cmpTerm_relevance, cmpTerm_name]
  cases hi : intCmp a.relevance b.relevance <;>
    cases hs : strCmp a.name b.name <;> rfl

theorem chainLE_default_iff (a b : Chain) :
    chainLE default_ordering a b = true ↔ relevanceNameLE a b := by
  unfold chainLE relevanceNameLE
  rw [cmpChain_default]
  unfold intCmp
  split_ifs with h1 h2
  · exact iff_of_true rfl (Or.inl h1)
  · rw [show (match Ordering.eq with
        | Ordering.eq => strCmp a.name b.name
        | o => o) = strCmp a.name b.name from rfl]
    rw [strCmp_ne_gt]
    constructor
    · intro hle
      exact Or.inr ⟨h2, hle⟩
    · rintro (hlt | ⟨heq, hle⟩)
      · exact absurd hlt h1
      · exact hle
  · refine iff_of_false (fun hc => Bool.noConfusion hc) ?_
    rintro (hlt | ⟨heq, hle⟩)
    · exact h1 hlt
    · exact h2 heq

theorem chainLE_default_total (a b : Chain) :
    chainLE default_ordering a b = true
    ∨ chainLE default_ordering b a = true := by
  rw [chainLE_default_iff, chainLE_default_iff]
  unfold relevanceNameLE
  rcases lt_trichotomy a.relevance b.relevance with h | h | h
  · exact Or.inl (Or.inl h)
  · by_cases hn : charListLt b.name.data a.name.data = false
    · exact Or.inl (Or.inr ⟨h, hn⟩)
    · have hn' : charListLt b.name.data a.name.data = true := by
        cases hcl : charListLt b.name.data a.name.data
        · exact absurd hcl hn
        · rfl
      exact Or.inr (Or.inr ⟨h.symm, charListLt_asymm _ _ hn'⟩)
  · exact Or.inr (Or.inl h)

theorem chainLE_default_trans (a b c : Chain)
    (hab : chainLE default_ordering a b = true)
    (hbc : chainLE default_ordering b c = true) :
    chainLE default_ordering a c = true := by
  rw [chainLE_default_iff] at hab hbc ⊢
  unfold relevanceNameLE at hab hbc ⊢
  rcases hab with h1 | ⟨h1, hn1⟩
  · rcases hbc with h2 | ⟨h2, _⟩
    · exact Or.inl (h1.trans h2)
    · exact Or.inl (h2 ▸ h1)
  · rcases hbc with h2 | ⟨h2, hn2⟩
    · exact Or.inl (h1 ▸ h2)
    · refine Or.inr ⟨h1.trans h2, ?_⟩
      cases hca : charListLt c.name.data a.name.data
      · rfl
      · exfalso
        by_cases hbc2 : charListLt b.name.data c.name.data = true
        · have hba : charListLt b.name.data a.name.data = true :=
            charListLt_trans _ _ _ hbc2 hca
          exact absurd hba (by simp [hn1])
        · have hbeq : b.name.data = c.name.data :=
            charListLt_connex _ _ (by simpa using hbc2) hn2
          rw [← hbeq] at hca
          exact absurd hca (by simp [hn1])

/-- C6: without an ordering override the chains list is a permutation of the
stored chains sorted by relevance ascending with name ascending as tiebreak,
and on the spec's example (relevance values [50, 50, 10] with names
[B, A, C]) the returned order is [C, A, B]. -/
theorem chains_default_order :
    (∀ l : List Chain,
      (chains_list none l).Perm l
      ∧ List.Sorted relevanceNameLE (chains_list none l))
    ∧ chains_list none
        [Chain.mk 1 50 "B" "bcd" "" false, Chain.mk 2 50 "A" "abc" "" false,
         Chain.mk 3 10 "C" "cde" "" false]
      = [Chain.mk 3 10 "C" "cde" "" false, Chain.mk 2 50 "A" "abc" "" false,
         Chain.mk 1 50 "B" "bcd" "" false] := by
  constructor
  · intro l
    constructor
    · exact List.perm_insertionSort _ l
    · haveI : IsTotal Chain (fun a b => chainLE default_ordering a b = true) :=
        ⟨chainLE_default_total⟩
      haveI : IsTrans Chain (fun a b => chainLE default_ordering a b = true) :=
        ⟨chainLE_default_trans⟩
      have h := List.sorted_insertionSort
        (fun a b => chainLE default_ordering a b = true) l
      exact h.imp (fun hab => (chainLE_default_iff _ _).1 hab)
  · decide

/-- C10: an ordering parameter whose terms all name fields outside
the whitelisted pair is silently ignored and the default order applies:
the response equals the response of a request without the parameter. -/
theorem chains_unknown_ordering_ignored (p : String) (l : List Chain)
    (h : ∀ t ∈ parse_ordering_terms p, term_valid t = false) :
    chains_list (some p) l = chains_list none l := by
  have hnil : remove_invalid_fields (parse_ordering_terms p) = [] := by
    unfold remove_invalid_fields
    refine List.filter_eq_nil_iff.mpr ?_
    intro t ht
    simp [h t ht]
  have hord : get_ordering (some p) = default_ordering := by
    simp [get_ordering, hnil]
  show order_by (get_ordering (some p)) l = order_by (get_ordering none) l
  rw [hord]
  rfl

/-- C10 witness: the ordering parameter "id,-foo" (two invalid terms) on a
concrete two-record database yields the default-ordered response. -/
theorem chains_unknown_ordering_ignored_witness :
    chains_list (some "id,-foo")
        [Chain.mk 1 50 "B" "bcd" "" false, Chain.mk 2 10 "A" "abc" "" false]
      = chains_list none
        [Chain.mk 1 50 "B" "bcd" "" false, Chain.mk 2 10 "A" "abc" "" false] :=
  chains_unknown_ordering_ignored "id,-foo"
    [Chain.mk 1 50 "B" "bcd" "" false, Chain.mk 2 10 "A" "abc" "" false]
    (by decide)

theorem get_limit_le_max (q : Option String) : get_limit q ≤ 100 := by
  cases q with
  | none => simp [get_limit, default_limit]
  | some s =>
    cases h : parseLimit s with
    | none => simp [get_limit, h, default_limit]
    | some n =>
      by_cases hn : n = 0
      · simp [get_limit, h, hn, default_limit]
      · simp only [get_limit, h, hn, if_false]
        exact le_trans (min_le_right n max_limit) (le_refl _)

/-- C5: with no limit parameter the page size is the default 10 (the
response holds `min 10 (remaining records)` entries); a parsed limit above
100 is clamped to `max_limit = 100` rather than rejected; and every
response holds at most 100 records. -/
theorem chains_pagination_clamp :
    get_limit none = 10
    ∧ (∀ (l : List Chain) (ord : Option String) (off : Nat),
        (chains_endpoint ord none off l).length = min 10 (l.length - off))
    ∧ (∀ (s : String) (n : Nat), parseLimit s = some n → 100 < n →
        get_limit (some s) = 100)
    ∧ (∀ (l : List Chain) (ord q : Option String) (off : Nat),
        (chains_endpoint ord q off l).length ≤ 100) := by
  refine ⟨rfl, ?_, ?_, ?_⟩
  · intro l ord off
    unfold chains_endpoint paginate
    rw [List.length_take, List.length_drop]
    have hlen : (chains_list ord l).length = l.length := by
      unfold chains_list order_by
      exact List.length_insertionSort _ l
    rw [hlen]
    rfl
  · intro s n hs hn
    have hnz : n ≠ 0 := by omega
    simp only [get_limit, hs, hnz, if_false]
    unfold max_limit
    omega
  · intro l ord q off
    have h1 : (chains_endpoint ord q off l).length ≤ get_limit q := by
      unfold chains_endpoint paginate
      exact List.length_take_le _ _
    exact le_trans h1 (get_limit_le_max q)

/-- C5 witness: requesting limit = 500 yields an effective page size of
exactly 100. -/
theorem chains_pagination_clamp_witness : get_limit (some "500") = 100 :=
  chains_pagination_clamp.2.2.1 "500" 500 (by decide) (by decide)

/-- Modelled from the spec: the SafeApp entity (defined in a collaborator
module outside src/): a visibility flag, the collection of chain ids the
app supports (held as query-text strings, since the view filters by
string-comparing them to the `chainId` query parameter), and optional
provider metadata. -/
structure SafeApp where
  visible : Bool
  chain_ids : List String
  provider : Option String
deriving DecidableEq

/-- Python `str.isdigit` on query text: nonempty and every character a
decimal digit. -/
def pyIsDigit (s : String) : Bool :=
  !s.data.isEmpty && s.data.all Char.isDigit

/-- Embedding of `SafeAppsListView.get_queryset` (src/safe_apps/views.py
lines 36-43): the visible apps, further filtered by chain-id membership
when the `chainId` query parameter is present and numeric. -/
def get_queryset (apps : List SafeApp) (chainId : Option String) :
    List SafeApp :=
  let queryset := apps.filter (fun a => a.visible)
  match chainId with
  | none => queryset
  | some network_id =>
    if pyIsDigit network_id then
      queryset.filter (fun a => a.chain_ids.contains network_id)
    else queryset

/-- The spec's one-pass description of the safe-apps list: exactly the
visible apps, restricted to those whose chain-id collection contains the
`chainId` value when that parameter is present and wholly numeric,
unrestricted (filter silently skipped) otherwise. -/
def safe_apps_spec (apps : List SafeApp) (chainId : Option String) :
    List SafeApp :=
  apps.filter (fun a =>
    a.visible && match chainId with
      | none => true
      | some s => !pyIsDigit s || a.chain_ids.contains s)

/-- C4: the safe-apps queryset is exactly the spec's description for every
app table and every (absent, numeric or non-numeric) `chainId` parameter;
on the spec's example (chain id lists [[1,4],[4],[10]]), `chainId=4`
returns the two apps containing 4 and `chainId=abc` returns all visible
apps. -/
theorem safe_apps_filter_correct :
    (∀ (apps : List SafeApp) (q : Option String),
      get_queryset apps q = safe_apps_spec apps q)
    ∧ get_queryset
        [SafeApp.mk true ["1", "4"] none, SafeApp.mk true ["4"] none,
         SafeApp.mk true ["10"] none] (some "4")
      = [SafeApp.mk true ["1", "4"] none, SafeApp.mk true ["4"] none]
    ∧ get_queryset
        [SafeApp.mk true ["1", "4"] none, SafeApp.mk true ["4"] none,
         SafeApp.mk true ["10"] none] (some "abc")
      = [SafeApp.mk true ["1", "4"] none, SafeApp.mk true ["4"] none,
         SafeApp.mk true ["10"] none] := by
  refine ⟨?_, by decide, by decide⟩
  intro apps q
  unfold get_queryset safe_apps_spec
  cases q with
  | none => simp
  | some s =>
    show (if pyIsDigit s = true
        then (apps.filter (fun a => a.visible)).filter
            (fun a => a.chain_ids.contains s)
        else apps.filter (fun a => a.visible))
      = apps.filter
          (fun a => a.visible && (!pyIsDigit s || a.chain_ids.contains s))
    cases hd : pyIsDigit s with
    | true =>
      rw [if_pos rfl, List.filter_filter]
      congr 1
      funext a
      simp [Bool.and_comm]
    | false =>
      rw [if_neg (by simp)]
      congr 1
      funext a
      simp

/-- The wallet state read by the disabled-wallets derivation: the keys of
all Wallet records and, for the chain at hand, the keys of the wallets
enabled on it (its `wallet_set` side of the many-to-many relation). -/
structure WalletState where
  all_wallets : Finset String
  enabled_wallets : Finset String

/-- Embedding of `Chain.get_disabled_wallets` (src/chains/models.py lines
87-91): the query-set difference of all wallets minus the chain's enabled
wallets. -/
def get_disabled_wallets (s : WalletState) : Finset String :=
  s.all_wallets \ s.enabled_wallets

/-- C9: when the chain's enabled wallets are wallets of the store
(relational integrity of the many-to-many table), the disabled set and the
enabled set partition the wallet universe: their union is all wallets and
their intersection is empty. -/
theorem disabled_wallets_partition (s : WalletState)
    (h : s.enabled_wallets ⊆ s.all_wallets) :
    get_disabled_wallets s ∪ s.enabled_wallets = s.all_wallets
    ∧ get_disabled_wallets s ∩ s.enabled_wallets = ∅ := by
  constructor
  · exact Finset.sdiff_union_of_subset h
  · exact Finset.sdiff_inter_self s.enabled_wallets s.all_wallets

/-- C9 witness: three wallets, one enabled on the chain; union restores the
universe and the intersection is empty. -/
theorem disabled_wallets_partition_witness :
    get_disabled_wallets
        (WalletState.mk {"metamask", "ledger", "trezor"} {"ledger"})
        ∪ ({"ledger"} : Finset String)
      = ({"metamask", "ledger", "trezor"} : Finset String)
    ∧ get_disabled_wallets
        (WalletState.mk {"metamask", "ledger", "trezor"} {"ledger"})
        ∩ ({"ledger"} : Finset String) = ∅ :=
  disabled_wallets_partition
    (WalletState.mk {"metamask", "ledger", "trezor"} {"ledger"})
    (by decide)

/-- The full set of request query parameters, the key material of the
response cache. -/
abbrev QueryParams := List (String × String)

/-- Modelled from the spec: one entry of a named cache region: the cached
payload and its expiry instant (populate time plus TTL). -/
structure CacheEntry where
  region : String
  key : QueryParams
  payload : List SafeApp
  expiry : Nat
deriving DecidableEq

/-- The dedicated cache region named by `cache_page(..., cache="safe-apps")`
(src/safe_apps/views.py line 27). -/
def safe_apps_cache_region : String := "safe-apps"

/-- The safe-apps cache TTL: `cache_page(60 * 10, ...)`, ten minutes in
seconds. -/
def safe_apps_cache_ttl : Nat := 60 * 10

/-- Modelled from the spec: lookup of an unexpired entry for a region/key
pair at time `now`. -/
def cacheLookup (entries : List CacheEntry) (region : String)
    (key : QueryParams) (now : Nat) : Option (List SafeApp) :=
  match entries.find? (fun e =>
      e.region == region && e.key == key && decide (now < e.expiry)) with
  | some e => some e.payload
  | none => none

/-- The serialized payload of a safe-apps response: the filtered queryset
(serialization is deterministic and injective on it, so byte-identity of
responses is payload equality). -/
def safe_apps_response (apps : List SafeApp) (params : QueryParams) :
    List SafeApp :=
  get_queryset apps (params.lookup "chainId")

/-- Modelled from the spec: `cache_page(60 * 10, cache="safe-apps")` around
`SafeAppsListView.get` (src/safe_apps/views.py lines 27-34).  On a hit the
cached payload is returned and the cache is unchanged; on a miss the
response is computed from the current app table and stored with expiry
`now + TTL` in the dedicated region, keyed by the full query-parameter
set. -/
def cached_get (entries : List CacheEntry) (apps : List SafeApp)
    (params : QueryParams) (now : Nat) :
    List SafeApp × List CacheEntry :=
  match cacheLookup entries safe_apps_cache_region params now with
  | some payload => (payload, entries)
  | none =>
    let payload := safe_apps_response apps params
    (payload,
      CacheEntry.mk safe_apps_cache_region params payload
        (now + safe_apps_cache_ttl) :: entries)

/-- C7, counterexample: two requests two seconds apart (well within ten
minutes of each other) straddle the expiry of the entry serving the first
one; the second recomputes from a changed app table and returns a different
payload, refuting "any two requests within 10 minutes" as stated. -/
theorem safe_apps_cache_counterexample :
    (cached_get
        [CacheEntry.mk safe_apps_cache_region [("chainId", "4")]
          [SafeApp.mk true ["4"] none] 600]
        [SafeApp.mk true ["4"] none] [("chainId", "4")] 599).1
      = [SafeApp.mk true ["4"] none]
    ∧ (cached_get
        (cached_get
          [CacheEntry.mk safe_apps_cache_region [("chainId", "4")]
            [SafeApp.mk true ["4"] none] 600]
          [SafeApp.mk true ["4"] none] [("chainId", "4")] 599).2
        [] [("chainId", "4")] 601).1
      = []
    ∧ 601 - 599 < safe_apps_cache_ttl
    ∧ ([SafeApp.mk true ["4"] none] : List SafeApp) ≠ [] := by
  refine ⟨by decide, by decide, by decide, by decide⟩

/-- C7 (amended): a request that populates the cache entry (a miss) fixes
the payload for the full TTL window: any request with the same
query-parameter set before `t1 + TTL` returns the identical payload even if
the visible-app table changed in between; and lookups are keyed by the full
query-parameter set in the dedicated region, so entries under a different
parameter set (e.g. another `chainId`) never influence the response. -/
theorem safe_apps_cache_window (entries : List CacheEntry)
    (apps1 apps2 : List SafeApp) (params : QueryParams) (t1 t2 : Nat)
    (hmiss : cacheLookup entries safe_apps_cache_region params t1 = none)
    (_h12 : t1 ≤ t2) (h2 : t2 < t1 + safe_apps_cache_ttl) :
    ((cached_get (cached_get entries apps1 params t1).2 apps2 params t2).1
      = (cached_get entries apps1 params t1).1)
    ∧ ∀ (e : CacheEntry) (es : List CacheEntry) (now : Nat),
        e.key ≠ params →
        cacheLookup (e :: es) safe_apps_cache_region params now
          = cacheLookup es safe_apps_cache_region params now := by
  constructor
  · have h1 : cached_get entries apps1 params t1
        = (safe_apps_response apps1 params,
           CacheEntry.mk safe_apps_cache_region params
             (safe_apps_response apps1 params)
             (t1 + safe_apps_cache_ttl) :: entries) := by
      unfold cached_get
      rw [hmiss]
    rw [h1]
    unfold cached_get cacheLookup
    rw [List.find?_cons_of_pos _ (by simp [h2])]
  · intro e es now hk
    unfold cacheLookup
    rw [List.find?_cons_of_neg _ (by simp [hk])]

/-- C7 witness: from an empty cache, a populate at t = 0 and a re-request at
t = 300 with the app table emptied in between return the same payload. -/
theorem safe_apps_cache_window_witness :
    (cached_get
        (cached_get [] [SafeApp.mk true ["4"] none]
          [("chainId", "4")] 0).2
        [] [("chainId", "4")] 300).1
      = (cached_get [] [SafeApp.mk true ["4"] none]
          [("chainId", "4")] 0).1 :=
  (safe_apps_cache_window [] [SafeApp.mk true ["4"] none] []
    [("chainId", "4")] 0 300 (by decide) (by decide) (by decide)).1

/-- Character class `[0-9]`: the ASCII digits, used by the explicit classes
of SEM_VER_REGEX and by the SemVer grammar. -/
def isAsciiDigit (c : Char) : Bool :=
  decide (48 ≤ c.toNat) && decide (c.toNat ≤ 57)

/-- Character class `[a-zA-Z-]` of SEM_VER_REGEX, by ASCII code. -/
def isLetterOrHyphen (c : Char) : Bool :=
  (decide (97 ≤ c.toNat) && decide (c.toNat ≤ 122))
  || (decide (65 ≤ c.toNat) && decide (c.toNat ≤ 90))
  || decide (c.toNat = 45)

/-- Character class `[0-9a-zA-Z-]` of SEM_VER_REGEX. -/
def isAlnumHyphen (c : Char) : Bool :=
  isAsciiDigit c || isLetterOrHyphen c

/-- The code-point ranges of the Unicode decimal digits (category Nd, per
the Unicode database of the CPython running the service): exactly the
characters Python's `\d` matches on a str pattern compiled without
`re.ASCII`, as SEM_VER_REGEX is. -/
def unicodeDigitRanges : List (Nat × Nat) :=
  [(48, 57), (1632, 1641), (1776, 1785), (1984, 1993),
   (2406, 2415), (2534, 2543), (2662, 2671), (2790, 2799),
   (2918, 2927), (3046, 3055), (3174, 3183), (3302, 3311),
   (3430, 3439), (3558, 3567), (3664, 3673), (3792, 3801),
   (3872, 3881), (4160, 4169), (4240, 4249), (6112, 6121),
   (6160, 6169), (6470, 6479), (6608, 6617), (6784, 6793),
   (6800, 6809), (6992, 7001), (7088, 7097), (7232, 7241),
   (7248, 7257), (42528, 42537), (43216, 43225), (43264, 43273),
   (43472, 43481), (43504, 43513), (43600, 43609), (44016, 44025),
   (65296, 65305), (66720, 66729), (68912, 68921), (69734, 69743),
   (69872, 69881), (69942, 69951), (70096, 70105), (70384, 70393),
   (70736, 70745), (70864, 70873), (71248, 71257), (71360, 71369),
   (71472, 71481), (71904, 71913), (72016, 72025), (72784, 72793),
   (73040, 73049), (73120, 73129), (92768, 92777), (92864, 92873),
   (93008, 93017), (120782, 120831), (123200, 123209), (123632, 123641),
   (125264, 125273), (130032, 130041)]

/-- Python `\d` of SEM_VER_REGEX: any Unicode decimal digit. -/
def isPyDigit (c : Char) : Bool :=
  unicodeDigitRanges.any (fun p =>
    decide (p.1 ≤ c.toNat) && decide (c.toNat ≤ p.2))

theorem letterOrHyphen_not_digit (c : Char)
    (h : isLetterOrHyphen c = true) : isAsciiDigit c = false := by
  cases hd : isAsciiDigit c
  · rfl
  · exfalso
    unfold isLetterOrHyphen at h
    unfold isAsciiDigit at hd
    simp only [Bool.or_eq_true, Bool.and_eq_true, decide_eq_true_eq] at h hd
    rcases h with (⟨h1, h2⟩ | ⟨h1, h2⟩) | h1 <;> omega

/-- On the ASCII range, Python's `\d` is exactly `[0-9]`: the only Nd range
below code point 128 is the ASCII digit range. -/
theorem pyDigit_ascii (c : Char) (h : c.toNat < 128) :
    isPyDigit c = isAsciiDigit c := by
  rw [Bool.eq_iff_iff]
  unfold isPyDigit isAsciiDigit
  simp only [List.any_eq_true, Bool.and_eq_true, decide_eq_true_eq]
  constructor
  · rintro ⟨p, hp, h1, h2⟩
    have hall : ∀ q ∈ unicodeDigitRanges,
        (q.1 = 48 ∧ q.2 = 57) ∨ 1632 ≤ q.1 := by decide
    rcases hall p hp with ⟨e1, e2⟩ | hge
    · omega
    · omega
  · intro hd
    exact ⟨(48, 57), by decide, hd.1, hd.2⟩

/-- The regex alternative `0|[1-9]\d*` with digit class `dig` standing for
`\d`: a lone zero, or a nonzero ASCII digit followed by digits — leading
zeros disallowed. -/
def numericIdent (dig : Char → Bool) : List Char → Bool
  | [] => false
  | c :: cs =>
    if c = '0' then cs.isEmpty
    else isAsciiDigit c && cs.all dig

/-- The regex alternative `\d*[a-zA-Z-][0-9a-zA-Z-]*` of a pre-release
identifier, transliterated by derivatives: the letter-or-hyphen occurs now,
or a `\d` digit is consumed first. -/
def alt3 (dig : Char → Bool) : List Char → Bool
  | [] => false
  | c :: cs =>
    (isLetterOrHyphen c && cs.all isAlnumHyphen)
    || (dig c && alt3 dig cs)

/-- A pre-release identifier of SEM_VER_REGEX:
`0|[1-9]\d*|\d*[a-zA-Z-][0-9a-zA-Z-]*`. -/
def preReleaseIdent (dig : Char → Bool) (w : List Char) : Bool :=
  numericIdent dig w || alt3 dig w

/-- A build-metadata identifier of SEM_VER_REGEX: `[0-9a-zA-Z-]+`. -/
def buildIdent (w : List Char) : Bool :=
  !w.isEmpty && w.all isAlnumHyphen

/-- A pre-release identifier as the spec words the SemVer grammar: a
nonempty alphanumeric-or-hyphen run over the ASCII alphabet, with leading
zeros disallowed when the identifier is numeric. -/
def specPreReleaseIdent (w : List Char) : Bool :=
  !w.isEmpty && w.all isAlnumHyphen
  && (!(w.all isAsciiDigit) || numericIdent isAsciiDigit w)

theorem numericIdent_all_digit (w : List Char)
    (h : numericIdent isAsciiDigit w = true) :
    w ≠ [] ∧ w.all isAsciiDigit = true := by
  cases w with
  | nil => exact absurd h (by decide)
  | cons c cs =>
    refine ⟨List.cons_ne_nil _ _, ?_⟩
    simp only [numericIdent] at h
    split_ifs at h with hc
    · subst hc
      rw [List.isEmpty_iff] at h
      subst h
      decide
    · simpa using h

theorem all_digit_alnum (w : List Char) (h : w.all isAsciiDigit = true) :
    w.all isAlnumHyphen = true := by
  induction w with
  | nil => rfl
  | cons c cs ih =>
    simp only [List.all_cons, Bool.and_eq_true] at h ⊢
    refine ⟨?_, ih h.2⟩
    unfold isAlnumHyphen
    simp [h.1]

theorem alt3_iff (w : List Char) :
    alt3 isAsciiDigit w = true ↔
      w ≠ [] ∧ w.all isAlnumHyphen = true
        ∧ w.all isAsciiDigit = false := by
  induction w with
  | nil => simp [alt3]
  | cons c cs ih =>
    simp only [alt3, Bool.or_eq_true, Bool.and_eq_true, List.all_cons]
    constructor
    · rintro (⟨hl, ha⟩ | ⟨hd, h3⟩)
      · refine ⟨List.cons_ne_nil _ _, ⟨?_, ha⟩, ?_⟩
        · unfold isAlnumHyphen
          simp [hl]
        · simp [letterOrHyphen_not_digit _ hl]
      · obtain ⟨hne, hall, hnd⟩ := ih.mp h3
        refine ⟨List.cons_ne_nil _ _, ⟨?_, hall⟩, ?_⟩
        · unfold isAlnumHyphen
          simp [hd]
        · simp [hnd]
    · rintro ⟨hne, ⟨hac, hacs⟩, hnd⟩
      cases hdc : isAsciiDigit c
      · left
        refine ⟨?_, hacs⟩
        unfold isAlnumHyphen at hac
        simpa [hdc] using hac
      · right
        refine ⟨rfl, ih.mpr ⟨?_, hacs, ?_⟩⟩
        · intro hcs
          subst hcs
          simp [hdc] at hnd
        · simp only [List.all_cons, hdc, Bool.true_and] at hnd
          exact hnd

theorem preReleaseIdent_eq_spec (w : List Char) :
    preReleaseIdent isAsciiDigit w = specPreReleaseIdent w := by
  cases w with
  | nil => rfl
  | cons c cs =>
    unfold preReleaseIdent specPreReleaseIdent
    rw [Bool.eq_iff_iff]
    simp only [Bool.or_eq_true, Bool.and_eq_true, List.isEmpty_cons,
      Bool.not_false, Bool.true_and]
    constructor
    · rintro (hnum | h3)
      · obtain ⟨-, hdig⟩ := numericIdent_all_digit _ hnum
        refine ⟨all_digit_alnum _ hdig, ?_⟩
        simp [hnum]
      · obtain ⟨-, halnum, hnd⟩ := (alt3_iff _).mp h3
        refine ⟨halnum, ?_⟩
        simp [hnd]
    · rintro ⟨halnum, hthird⟩
      rcases hthird with hnd | hnum
      · right
        refine (alt3_iff _).mpr ⟨List.cons_ne_nil _ _, halnum, ?_⟩
        cases hall : (c :: cs).all isAsciiDigit
        · rfl
        · rw [hall] at hnd
          exact absurd hnd (by decide)
      · left
        exact hnum

/-- Consumes the leading `0|[1-9]\d*` core component: a lone `0`, or a
nonzero ASCII digit followed by the maximal run of `\d` digits.  Greedy
consumption is exact: in the anchored regex only a dot, a hyphen, a plus
or the end of the match may follow a core component, and no digit is any
of those, so a backtracked shorter match always fails. -/
def takeCoreNumber (dig : Char → Bool) : List Char → Option (List Char)
  | [] => none
  | c :: cs =>
    if c = '0' then some cs
    else if isAsciiDigit c then some (cs.dropWhile dig)
    else none

/-- Consumes the literal dot between two core components. -/
def expectDot : List Char → Option (List Char)
  | [] => none
  | c :: r => if c = '.' then some r else none

/-- Matches `(?:-(pre))?(?:\+(build))?` up to the anchor, for a pre-release
identifier predicate `preId`.  The pre-release part extends to the first
`+` (neither identifier class contains `+`, so that split is exact), and
both parts are split on dots, whose `n` separators delimit `n + 1`
identifiers that must each match. -/
def semverTail (preId : List Char → Bool) : List Char → Bool
  | [] => true
  | c :: r =>
    if c = '-' then
      ((splitOnChar '.' (r.takeWhile (fun x => x != '+'))).all preId)
      && (match r.dropWhile (fun x => x != '+') with
          | [] => true
          | _ :: b => (splitOnChar '.' b).all buildIdent)
    else if c = '+' then (splitOnChar '.' r).all buildIdent
    else false

/-- The anchored SEM_VER_REGEX body: three dot-separated numeric core
components, then the optional pre-release and build parts, consuming the
whole input. -/
def semverScan (dig : Char → Bool) (preId : List Char → Bool)
    (s : List Char) : Bool :=
  Option.getD
    ((takeCoreNumber dig s).bind fun r1 =>
      (expectDot r1).bind fun r1b =>
        (takeCoreNumber dig r1b).bind fun r2 =>
          (expectDot r2).bind fun r2b =>
            (takeCoreNumber dig r2b).bind fun r3 =>
              some (semverTail preId r3))
    false

/-- Embedding of `sem_ver_validator` = RegexValidator(SEM_VER_REGEX)
(src/chains/models.py lines 15-19).  RegexValidator calls `regex.search`
on the value: the pattern is anchored at `^` (without MULTILINE a match can
only start at position 0) and closes with `$`, which in Python matches at
the end of the string or just before one trailing newline; `\d` on a str
pattern compiled without `re.ASCII` matches any Unicode decimal digit.  No
character class of the body matches a newline, so the validator accepts
exactly when the body matches the whole string, or the string ends in a
newline and the body matches everything before it. -/
def validate_semver (s : String) : Bool :=
  semverScan isPyDigit (preReleaseIdent isPyDigit) s.data
  || ((s.data.getLast? == some '\n')
      && semverScan isPyDigit (preReleaseIdent isPyDigit) s.data.dropLast)

/-- Modelled from the spec (comparison side of the refinement): the SemVer
2.0 grammar as the spec words it — numeric core triplet, optional
hyphen-delimited pre-release identifiers, optional plus-delimited build
metadata, each an alphanumeric-or-hyphen run over the ASCII alphabet,
leading zeros disallowed in numeric identifiers — on an exact character
list. -/
def semver_grammar_list (l : List Char) : Bool :=
  semverScan isAsciiDigit specPreReleaseIdent l

/-- The SemVer 2.0 grammar on a whole string. -/
def semver_grammar (s : String) : Bool :=
  semver_grammar_list s.data

/-- One trailing newline removed — the tolerance Python's `$` adds. -/
def stripFinalNewline (l : List Char) : List Char :=
  if l.getLast? = some '\n' then l.dropLast else l

theorem some_bind' {α β : Type} (a : α) (f : α → Option β) :
    (Option.some a).bind f = f a := rfl

theorem none_bind' {α β : Type} (f : α → Option β) :
    (Option.none : Option α).bind f = none := rfl

theorem expectDot_eq (r rb : List Char) (h : expectDot r = some rb) :
    r = '.' :: rb := by
  cases r with
  | nil => simp [expectDot] at h
  | cons c rest =>
    simp only [expectDot] at h
    split_ifs at h with hc
    rw [Option.some_inj] at h
    subst h
    rw [hc]

theorem all_congr_of_mem {α : Type} (p q : α → Bool) (l : List α)
    (h : ∀ a ∈ l, p a = q a) : l.all p = l.all q := by
  induction l with
  | nil => rfl
  | cons x xs ih =>
    simp only [List.all_cons]
    rw [h x (List.mem_cons_self x xs),
      ih (fun a ha => h a (List.mem_cons_of_mem _ ha))]

theorem dropWhile_congr_of_mem {α : Type} (p q : α → Bool) (l : List α)
    (h : ∀ a ∈ l, p a = q a) : l.dropWhile p = l.dropWhile q := by
  induction l with
  | nil => rfl
  | cons x xs ih =>
    simp only [List.dropWhile_cons]
    rw [h x (List.mem_cons_self x xs),
      ih (fun a ha => h a (List.mem_cons_of_mem _ ha))]

theorem numericIdent_congr (d1 d2 : Char → Bool) (w : List Char)
    (h : ∀ c ∈ w, d1 c = d2 c) :
    numericIdent d1 w = numericIdent d2 w := by
  cases w with
  | nil => rfl
  | cons c cs =>
    simp only [numericIdent]
    rw [all_congr_of_mem d1 d2 cs
      (fun a ha => h a (List.mem_cons_of_mem _ ha))]

theorem alt3_congr (d1 d2 : Char → Bool) : ∀ (w : List Char),
    (∀ c ∈ w, d1 c = d2 c) → alt3 d1 w = alt3 d2 w
  | [], _ => rfl
  | c :: cs, h => by
    simp only [alt3]
    rw [h c (List.mem_cons_self c cs),
      alt3_congr d1 d2 cs (fun a ha => h a (List.mem_cons_of_mem _ ha))]

theorem preReleaseIdent_congr (d1 d2 : Char → Bool) (w : List Char)
    (h : ∀ c ∈ w, d1 c = d2 c) :
    preReleaseIdent d1 w = preReleaseIdent d2 w := by
  unfold preReleaseIdent
  rw [numericIdent_congr d1 d2 w h, alt3_congr d1 d2 w h]

theorem takeCoreNumber_congr (d1 d2 : Char → Bool) (l : List Char)
    (h : ∀ c ∈ l, d1 c = d2 c) :
    takeCoreNumber d1 l = takeCoreNumber d2 l := by
  cases l with
  | nil => rfl
  | cons c cs =>
    simp only [takeCoreNumber]
    rw [dropWhile_congr_of_mem d1 d2 cs
      (fun a ha => h a (List.mem_cons_of_mem _ ha))]

theorem takeCoreNumber_subset (dig : Char → Bool) (l r : List Char)
    (h : takeCoreNumber dig l = some r) : ∀ c ∈ r, c ∈ l := by
  cases l with
  | nil => simp [takeCoreNumber] at h
  | cons c0 cs =>
    simp only [takeCoreNumber] at h
    split_ifs at h with h0 hd
    · rw [Option.some_inj] at h
      subst h
      exact fun x hx => List.mem_cons_of_mem _ hx
    · rw [Option.some_inj] at h
      subst h
      exact fun x hx =>
        List.mem_cons_of_mem _ (List.dropWhile_subset dig hx)

theorem takeCoreNumber_chars (dig : Char → Bool) (l r : List Char)
    (h : takeCoreNumber dig l = some r) :
    ∀ c ∈ l, (isAsciiDigit c || dig c) = true ∨ c ∈ r := by
  cases l with
  | nil => simp [takeCoreNumber] at h
  | cons c0 cs =>
    simp only [takeCoreNumber] at h
    split_ifs at h with h0 hd
    · rw [Option.some_inj] at h
      subst h
      intro c hc
      rcases List.mem_cons.mp hc with hceq | hc'
      · left
        rw [hceq, h0]
        simp [isAsciiDigit]
      · right
        exact hc'
    · rw [Option.some_inj] at h
      subst h
      intro c hc
      rcases List.mem_cons.mp hc with hceq | hc'
      · left
        rw [hceq]
        simp [hd]
      · have hsplit : c ∈ cs.takeWhile dig ++ cs.dropWhile dig := by
          rw [List.takeWhile_append_dropWhile]
          exact hc'
        rcases List.mem_append.mp hsplit with htk | hdr
        · left
          simp [List.mem_takeWhile_imp htk]
        · right
          exact hdr

theorem mem_of_mem_splitOnChar (sep : Char) :
    ∀ (l w : List Char), w ∈ splitOnChar sep l → ∀ x ∈ w, x ∈ l
  | [], w, hw, x, hx => by
    simp only [splitOnChar, List.mem_singleton] at hw
    subst hw
    cases hx
  | c :: rest, w, hw, x, hx => by
    simp only [splitOnChar] at hw
    split_ifs at hw with hc
    · rcases List.mem_cons.mp hw with hweq | hw'
      · subst hweq
        cases hx
      · exact List.mem_cons_of_mem _
          (mem_of_mem_splitOnChar sep rest w hw' x hx)
    · revert hw
      cases hrec : splitOnChar sep rest with
      | nil =>
        intro hw
        simp only [List.mem_singleton] at hw
        subst hw
        rcases List.mem_singleton.mp hx with rfl
        exact List.mem_cons_self _ _
      | cons w0 ws =>
        intro hw
        rcases List.mem_cons.mp hw with hweq | hw'
        · subst hweq
          rcases List.mem_cons.mp hx with hxeq | hx'
          · subst hxeq
            exact List.mem_cons_self _ _
          · refine List.mem_cons_of_mem _ ?_
            refine mem_of_mem_splitOnChar sep rest w0 ?_ x hx'
            rw [hrec]
            exact List.mem_cons_self w0 ws
        · refine List.mem_cons_of_mem _ ?_
          refine mem_of_mem_splitOnChar sep rest w ?_ x hx
          rw [hrec]
          exact List.mem_cons_of_mem w0 hw'

theorem mem_splitOnChar_of_mem (sep : Char) :
    ∀ (l : List Char), ∀ x ∈ l,
      x = sep ∨ ∃ w ∈ splitOnChar sep l, x ∈ w
  | [], x, hx => by cases hx
  | c :: rest, x, hx => by
    by_cases hc : c = sep
    · subst hc
      rcases List.mem_cons.mp hx with hxeq | hx'
      · exact Or.inl hxeq
      · rcases mem_splitOnChar_of_mem c rest x hx' with h | ⟨w, hw, hxw⟩
        · exact Or.inl h
        · refine Or.inr ⟨w, ?_, hxw⟩
          simp only [splitOnChar, if_pos rfl]
          exact List.mem_cons_of_mem _ hw
    · have hsplit : splitOnChar sep (c :: rest) =
          match splitOnChar sep rest with
          | [] => [[c]]
          | w0 :: ws => (c :: w0) :: ws := by
        simp [splitOnChar, hc]
      rcases List.mem_cons.mp hx with hxeq | hx'
      · refine Or.inr ?_
        cases hrec : splitOnChar sep rest with
        | nil =>
          refine ⟨[c], ?_, ?_⟩
          · rw [hsplit, hrec]
            exact List.mem_cons_self _ _
          · rw [hxeq]
            exact List.mem_cons_self _ _
        | cons w0 ws =>
          refine ⟨c :: w0, ?_, ?_⟩
          · rw [hsplit, hrec]
            exact List.mem_cons_self _ _
          · rw [hxeq]
            exact List.mem_cons_self _ _
      · rcases mem_splitOnChar_of_mem sep rest x hx' with h | ⟨w, hw, hxw⟩
        · exact Or.inl h
        · cases hrec : splitOnChar sep rest with
          | nil =>
            rw [hrec] at hw
            cases hw
          | cons w0 ws =>
            rw [hrec] at hw
            rcases List.mem_cons.mp hw with hweq | hw'
            · refine Or.inr ⟨c :: w, ?_, List.mem_cons_of_mem _ hxw⟩
              rw [hsplit, hrec, hweq]
              exact List.mem_cons_self _ _
            · refine Or.inr ⟨w, ?_, hxw⟩
              rw [hsplit, hrec]
              exact List.mem_cons_of_mem _ hw'

theorem semverTail_congr (p q : List Char → Bool) (rest : List Char)
    (h : ∀ w, (∀ c ∈ w, c ∈ rest) → p w = q w) :
    semverTail p rest = semverTail q rest := by
  cases rest with
  | nil => rfl
  | cons c r =>
    simp only [semverTail]
    split_ifs with hminus hplus
    · have hall : (splitOnChar '.' (r.takeWhile (fun x => x != '+'))).all p
          = (splitOnChar '.' (r.takeWhile (fun x => x != '+'))).all q := by
        refine all_congr_of_mem p q _ ?_
        intro w hw
        refine h w ?_
        intro x hx
        exact List.mem_cons_of_mem _ (List.takeWhile_subset _
          (mem_of_mem_splitOnChar '.' _ w hw x hx))
      rw [hall]
    · rfl
    · rfl

theorem semverScan_congr (d1 d2 : Char → Bool)
    (p1 p2 : List Char → Bool) (l : List Char)
    (hd : ∀ c ∈ l, d1 c = d2 c)
    (hp : ∀ w, (∀ c ∈ w, c ∈ l) → p1 w = p2 w) :
    semverScan d1 p1 l = semverScan d2 p2 l := by
  unfold semverScan
  rw [takeCoreNumber_congr d1 d2 l hd]
  cases h1 : takeCoreNumber d2 l with
  | none => rfl
  | some r1 =>
    simp only [some_bind']
    have hr1 : ∀ c ∈ r1, c ∈ l := takeCoreNumber_subset d2 l r1 h1
    cases h1b : expectDot r1 with
    | none => rfl
    | some r1b =>
      simp only [some_bind']
      have hr1b : ∀ c ∈ r1b, c ∈ l := by
        intro c hc
        apply hr1
        rw [expectDot_eq r1 r1b h1b]
        exact List.mem_cons_of_mem _ hc
      rw [takeCoreNumber_congr d1 d2 r1b (fun c hc => hd c (hr1b c hc))]
      cases h2 : takeCoreNumber d2 r1b with
      | none => rfl
      | some r2 =>
        simp only [some_bind']
        have hr2 : ∀ c ∈ r2, c ∈ l :=
          fun c hc => hr1b c (takeCoreNumber_subset d2 r1b r2 h2 c hc)
        cases h2b : expectDot r2 with
        | none => rfl
        | some r2b =>
          simp only [some_bind']
          have hr2b : ∀ c ∈ r2b, c ∈ l := by
            intro c hc
            apply hr2
            rw [expectDot_eq r2 r2b h2b]
            exact List.mem_cons_of_mem _ hc
          rw [takeCoreNumber_congr d1 d2 r2b
            (fun c hc => hd c (hr2b c hc))]
          cases h3 : takeCoreNumber d2 r2b with
          | none => rfl
          | some r3 =>
            simp only [some_bind', Option.getD_some]
            have hr3 : ∀ c ∈ r3, c ∈ l :=
              fun c hc => hr2b c (takeCoreNumber_subset d2 r2b r3 h3 c hc)
            exact semverTail_congr p1 p2 r3
              (fun w hw => hp w (fun c hc => hr3 c (hw c hc)))

/-- The characters the SEM_VER_REGEX body can consume, for digit class
`dig`: digits, ASCII alphanumerics and hyphens, the dot (code 46) and the
plus (code 43) separators. -/
def semverAllowedChar (dig : Char → Bool) (c : Char) : Bool :=
  dig c || isAlnumHyphen c || decide (c.toNat = 46) || decide (c.toNat = 43)

theorem numericIdent_chars (dig : Char → Bool) (w : List Char)
    (h : numericIdent dig w = true) :
    ∀ c ∈ w, (dig c || isAlnumHyphen c) = true := by
  cases w with
  | nil => intro c hc; cases hc
  | cons x xs =>
    simp only [numericIdent] at h
    split_ifs at h with h0
    · rw [List.isEmpty_iff] at h
      subst h
      intro c hc
      rcases List.mem_singleton.mp hc with rfl
      rw [h0]
      simp [isAlnumHyphen, isAsciiDigit]
    · rw [Bool.and_eq_true] at h
      obtain ⟨hx, hxs⟩ := h
      intro c hc
      rcases List.mem_cons.mp hc with hceq | hc'
      · rw [hceq]
        simp [isAlnumHyphen, hx]
      · simp [List.all_eq_true.mp hxs c hc']

theorem alt3_chars (dig : Char → Bool) : ∀ (w : List Char),
    alt3 dig w = true → ∀ c ∈ w, (dig c || isAlnumHyphen c) = true
  | [] => by
    intro h c hc
    cases hc
  | x :: xs => by
    intro h c hc
    simp only [alt3, Bool.or_eq_true, Bool.and_eq_true] at h
    rcases List.mem_cons.mp hc with hceq | hc'
    · rw [hceq]
      rcases h with ⟨hl, -⟩ | ⟨hd, -⟩
      · simp [isAlnumHyphen, hl]
      · simp [hd]
    · rcases h with ⟨-, ha⟩ | ⟨-, h3⟩
      · simp [List.all_eq_true.mp ha c hc']
      · exact alt3_chars dig xs h3 c hc'

theorem preReleaseIdent_chars (dig : Char → Bool) (w : List Char)
    (h : preReleaseIdent dig w = true) :
    ∀ c ∈ w, (dig c || isAlnumHyphen c) = true := by
  unfold preReleaseIdent at h
  simp only [Bool.or_eq_true] at h
  rcases h with h | h
  · exact numericIdent_chars dig w h
  · exact alt3_chars dig w h

theorem specPreReleaseIdent_chars (dig : Char → Bool) (w : List Char)
    (h : specPreReleaseIdent w = true) :
    ∀ c ∈ w, (dig c || isAlnumHyphen c) = true := by
  unfold specPreReleaseIdent at h
  simp only [Bool.and_eq_true] at h
  intro c hc
  simp [List.all_eq_true.mp h.1.2 c hc]

theorem buildIdent_chars (w : List Char) (h : buildIdent w = true) :
    ∀ c ∈ w, isAlnumHyphen c = true := by
  unfold buildIdent at h
  rw [Bool.and_eq_true] at h
  exact fun c hc => List.all_eq_true.mp h.2 c hc

theorem semverTail_chars (dig : Char → Bool) (preId : List Char → Bool)
    (hp : ∀ w, preId w = true → ∀ c ∈ w, (dig c || isAlnumHyphen c) = true)
    (rest : List Char) (h : semverTail preId rest = true) :
    ∀ c ∈ rest, semverAllowedChar dig c = true := by
  have halnum : ∀ c : Char, isAlnumHyphen c = true →
      semverAllowedChar dig c = true := by
    intro c hc
    simp [semverAllowedChar, hc]
  have hdigal : ∀ c : Char, (dig c || isAlnumHyphen c) = true →
      semverAllowedChar dig c = true := by
    intro c hc
    simp only [semverAllowedChar]
    rw [hc]
    simp
  cases rest with
  | nil =>
    intro c hc
    cases hc
  | cons c0 r =>
    simp only [semverTail] at h
    split_ifs at h with hminus hplus
    · rw [Bool.and_eq_true] at h
      obtain ⟨hpre, hbuild⟩ := h
      intro c hc
      rcases List.mem_cons.mp hc with hceq | hcr
      · rw [hceq, hminus]
        exact halnum '-' (by decide)
      · have hsplit2 : c ∈ r.takeWhile (fun x => x != '+')
            ++ r.dropWhile (fun x => x != '+') := by
          rw [List.takeWhile_append_dropWhile]
          exact hcr
        rcases List.mem_append.mp hsplit2 with htk | hdr
        · rcases mem_splitOnChar_of_mem '.' _ c htk with hceq | ⟨w, hw, hcw⟩
          · rw [hceq]
            simp [semverAllowedChar]
          · exact hdigal c (hp w (List.all_eq_true.mp hpre w hw) c hcw)
        · cases hdrop : r.dropWhile (fun x => x != '+') with
          | nil =>
            rw [hdrop] at hdr
            cases hdr
          | cons d b =>
            rw [hdrop] at hdr
            have hd := List.head?_dropWhile_not (fun x => x != '+') r
            rw [hdrop] at hd
            have hdeq : d = '+' := by simpa using hd
            rw [hdrop] at hbuild
            rcases List.mem_cons.mp hdr with hceq | hcb
            · rw [hceq, hdeq]
              simp [semverAllowedChar]
            · rcases mem_splitOnChar_of_mem '.' _ c hcb with hceq | ⟨w, hw, hcw⟩
              · rw [hceq]
                simp [semverAllowedChar]
              · exact halnum c
                  (buildIdent_chars w (List.all_eq_true.mp hbuild w hw) c hcw)
    · intro c hc
      rcases List.mem_cons.mp hc with hceq | hcr
      · rw [hceq, hplus]
        simp [semverAllowedChar]
      · rcases mem_splitOnChar_of_mem '.' _ c hcr with hceq | ⟨w, hw, hcw⟩
        · rw [hceq]
          simp [semverAllowedChar]
        · exact halnum c
            (buildIdent_chars w (List.all_eq_true.mp h w hw) c hcw)

theorem semverScan_chars (dig : Char → Bool) (preId : List Char → Bool)
    (hp : ∀ w, preId w = true → ∀ c ∈ w, (dig c || isAlnumHyphen c) = true)
    (l : List Char) (h : semverScan dig preId l = true) :
    ∀ c ∈ l, semverAllowedChar dig c = true := by
  have hcore : ∀ c : Char, (isAsciiDigit c || dig c) = true →
      semverAllowedChar dig c = true := by
    intro c hc
    simp only [Bool.or_eq_true] at hc
    rcases hc with hc | hc
    · simp [semverAllowedChar, isAlnumHyphen, hc]
    · simp [semverAllowedChar, hc]
  unfold semverScan at h
  cases h1 : takeCoreNumber dig l with
  | none =>
    rw [h1] at h
    simp only [none_bind', Option.getD_none] at h
    exact Bool.noConfusion h
  | some r1 =>
    rw [h1] at h
    simp only [some_bind'] at h
    cases h1b : expectDot r1 with
    | none =>
      rw [h1b] at h
      simp only [none_bind', Option.getD_none] at h
      exact Bool.noConfusion h
    | some r1b =>
      rw [h1b] at h
      simp only [some_bind'] at h
      cases h2 : takeCoreNumber dig r1b with
      | none =>
        rw [h2] at h
        simp only [none_bind', Option.getD_none] at h
        exact Bool.noConfusion h
      | some r2 =>
        rw [h2] at h
        simp only [some_bind'] at h
        cases h2b : expectDot r2 with
        | none =>
          rw [h2b] at h
          simp only [none_bind', Option.getD_none] at h
          exact Bool.noConfusion h
        | some r2b =>
          rw [h2b] at h
          simp only [some_bind'] at h
          cases h3 : takeCoreNumber dig r2b with
          | none =>
            rw [h3] at h
            simp only [none_bind', Option.getD_none] at h
            exact Bool.noConfusion h
          | some r3 =>
            rw [h3] at h
            simp only [some_bind', Option.getD_some] at h
            intro c hc
            rcases takeCoreNumber_chars dig l r1 h1 c hc with hdig | hc1
            · exact hcore c hdig
            · rw [expectDot_eq r1 r1b h1b] at hc1
              rcases List.mem_cons.mp hc1 with hceq | hc2
              · rw [hceq]
                simp [semverAllowedChar]
              · rcases takeCoreNumber_chars dig r1b r2 h2 c hc2 with
                  hdig | hc3
                · exact hcore c hdig
                · rw [expectDot_eq r2 r2b h2b] at hc3
                  rcases List.mem_cons.mp hc3 with hceq | hc4
                  · rw [hceq]
                    simp [semverAllowedChar]
                  · rcases takeCoreNumber_chars dig r2b r3 h3 c hc4 with
                      hdig | hc5
                    · exact hcore c hdig
                    · exact semverTail_chars dig preId hp r3 h c hc5

theorem allowedChar_ascii_bound (c : Char)
    (h : semverAllowedChar isAsciiDigit c = true) :
    c.toNat < 128 ∧ c.toNat ≠ 10 := by
  unfold semverAllowedChar isAlnumHyphen isAsciiDigit isLetterOrHyphen at h
  simp only [Bool.or_eq_true, Bool.and_eq_true, decide_eq_true_eq] at h
  rcases h with ((⟨a1, a2⟩ | (⟨a1, a2⟩ | ((⟨a1, a2⟩ | ⟨a1, a2⟩) | a1))) | a1)
    | a1 <;> omega

theorem grammar_chars (l : List Char) (h : semver_grammar_list l = true) :
    ∀ c ∈ l, c.toNat < 128 ∧ c.toNat ≠ 10 := by
  intro c hc
  exact allowedChar_ascii_bound c
    (semverScan_chars isAsciiDigit specPreReleaseIdent
      (specPreReleaseIdent_chars isAsciiDigit) l h c hc)

theorem scanPy_no_newline (l : List Char) (hn : '\n' ∈ l) :
    semverScan isPyDigit (preReleaseIdent isPyDigit) l = false := by
  cases hs : semverScan isPyDigit (preReleaseIdent isPyDigit) l
  · rfl
  · exfalso
    have hall := semverScan_chars isPyDigit (preReleaseIdent isPyDigit)
      (preReleaseIdent_chars isPyDigit) l hs '\n' hn
    rw [show semverAllowedChar isPyDigit '\n' = false from by decide] at hall
    exact Bool.noConfusion hall

theorem validate_semver_ascii (s : String)
    (h : ∀ c ∈ s.data, c.toNat < 128) :
    validate_semver s = semver_grammar_list (stripFinalNewline s.data) := by
  have hbody : ∀ (l : List Char), (∀ c ∈ l, c.toNat < 128) →
      semverScan isPyDigit (preReleaseIdent isPyDigit) l
        = semver_grammar_list l := by
    intro l hl
    have h1 : semverScan isPyDigit (preReleaseIdent isPyDigit) l
        = semverScan isAsciiDigit (preReleaseIdent isAsciiDigit) l :=
      semverScan_congr isPyDigit isAsciiDigit _ _ l
        (fun c hc => pyDigit_ascii c (hl c hc))
        (fun w hw => preReleaseIdent_congr isPyDigit isAsciiDigit w
          (fun c hc => pyDigit_ascii c (hl c (hw c hc))))
    rw [h1]
    unfold semver_grammar_list
    exact semverScan_congr isAsciiDigit isAsciiDigit _ _ l
      (fun _ _ => rfl) (fun w _ => preReleaseIdent_eq_spec w)
  unfold validate_semver stripFinalNewline
  by_cases hn : s.data.getLast? = some '\n'
  · rw [if_pos hn]
    have hmem : '\n' ∈ s.data := List.mem_of_getLast?_eq_some hn
    rw [scanPy_no_newline s.data hmem]
    have hbeq : (s.data.getLast? == some '\n') = true := by
      rw [hn]
      simp
    rw [hbeq, Bool.false_or, Bool.true_and]
    exact hbody _ (fun c hc => h c (List.dropLast_subset _ hc))
  · rw [if_neg hn]
    have hbeq : (s.data.getLast? == some '\n') = false := by
      rw [beq_eq_false_iff_ne]
      exact hn
    rw [hbeq, Bool.false_and, Bool.or_false]
    exact hbody _ h

theorem validate_semver_complete (s : String)
    (h : semver_grammar s = true) : validate_semver s = true := by
  have hch := grammar_chars s.data h
  rw [validate_semver_ascii s (fun c hc => (hch c hc).1)]
  have hstrip : stripFinalNewline s.data = s.data := by
    unfold stripFinalNewline
    split_ifs with hl
    · exfalso
      exact (hch '\n' (List.mem_of_getLast?_eq_some hl)).2 (by decide)
    · rfl
  rw [hstrip]
  exact h

/-- C8, counterexample: the real validator — RegexValidator runs re.search,
where `$` also matches just before one trailing newline and `\d` matches
any Unicode decimal digit — accepts "1.0.0\n" and "1٤.0.0" (U+0664
ARABIC-INDIC DIGIT FOUR), both of which the SemVer 2.0 grammar rejects,
refuting the claimed iff. -/
theorem semver_validator_counterexample :
    validate_semver "1.0.0\n" = true
    ∧ semver_grammar "1.0.0\n" = false
    ∧ validate_semver "1٤.0.0" = true
    ∧ semver_grammar "1٤.0.0" = false :=
  ⟨by decide, by decide, by decide, by decide⟩

/-- C8 (amended): the validator accepts a string exactly when the regex
body matches it with one trailing newline stripped, `\d` standing for any
Unicode decimal digit; on ASCII strings this coincides with the SemVer 2.0
grammar applied to the newline-stripped string.  Every string of the
SemVer 2.0 grammar is accepted, leading zeros in a numeric identifier
(such as "1.02.0") are rejected, but acceptance is strictly larger than
the grammar: "1.0.0\n" and non-ASCII digit runs are also accepted. -/
theorem semver_validator_behavior :
    (∀ s : String, (∀ c ∈ s.data, c.toNat < 128) →
        validate_semver s = semver_grammar_list (stripFinalNewline s.data))
    ∧ (∀ s : String, semver_grammar s = true → validate_semver s = true)
    ∧ validate_semver "1.0.0" = true
    ∧ validate_semver "1.0.0-alpha.1+build.11-a" = true
    ∧ validate_semver "1.02.0" = false
    ∧ validate_semver "1.0.0-01" = false :=
  ⟨validate_semver_ascii, validate_semver_complete, by decide, by decide,
   by decide, by decide⟩

/-- C8 witness: at "1.0.0\n" (an ASCII string) the amended theorem reduces
the validator to the grammar's verdict on the newline-stripped list, and at
"1.2.3" completeness yields acceptance. -/
theorem semver_validator_behavior_witness :
    validate_semver "1.0.0\n"
      = semver_grammar_list (stripFinalNewline ("1.0.0\n").data)
    ∧ validate_semver "1.2.3" = true :=
  ⟨semver_validator_behavior.1 "1.0.0\n" (by decide),
   semver_validator_behavior.2.1 "1.2.3" (by decide)⟩

end SafeConfig
